import Mathlib

/-!
Verification development for the xkcd search service.

The Go sources are shallowly embedded in Lean:
* the `words` normalization pipeline (`words/words/words.go`),
* the full-scan and indexed rankers of the search service
  (`search/adapters/grpc/server.go`, core service part),
* the updater state machine and pipeline (`update/core/service.go`),
* the token-bucket rate limiter (`api/adapters/rest/middleware`).

Machine integers are modelled as `Int`/`Nat` (no overflow is reachable for
the quantities involved: catalog sizes and match counts are far below 2^63,
so 64-bit wrap-around cannot occur and is not modelled).  The float-valued
token bucket is modelled over `ℚ`.

The English Snowball (Porter2) stemmer and its stop-word list are an external
dependency of the repository (github.com/kljensen/snowball/english) whose
sources are not part of the repository; they are modelled here from the
specification's reference to English Snowball stemming, following the
published Snowball English (Porter2) algorithm.
-/

namespace XkcdSearch

/-! ### Tokenization (strings.FieldsFunc over non-letter/non-digit runes)

`words.Norm` splits the phrase on every codepoint that is neither a letter
nor a digit.  The model restricts the Unicode letter/digit classes to their
ASCII fragments (all inputs appearing in the claims are ASCII). -/

/-- A codepoint kept inside a token: an ASCII letter or digit
(model of `unicode.IsLetter(c) || unicode.IsNumber(c)`). -/
def isWordChar (c : Char) : Bool := c.isAlpha || c.isDigit

/-- Model of `strings.FieldsFunc`: split on every character satisfying `sep`;
runs of separators collapse, empty fields are not produced.
`acc` is the current token accumulated in reverse. -/
def splitFields (sep : Char → Bool) : List Char → List Char → List (List Char)
  | [], acc => if acc.isEmpty then [] else [acc.reverse]
  | c :: rest, acc =>
    if sep c then
      if acc.isEmpty then splitFields sep rest []
      else acc.reverse :: splitFields sep rest []
    else splitFields sep rest (c :: acc)

/-- The tokens of a phrase, in order of occurrence. -/
def phraseTokens (cs : List Char) : List (List Char) :=
  splitFields (fun c => !isWordChar c) cs []

/-! ### English Snowball stop-word list

Modelled from the spec: the stop-word list of the Snowball English stemmer
(the repository consumes it through `english.IsStopWord`, an external
dependency).  Contraction forms (for example `aren't`) are omitted: tokens
reaching `IsStopWord` in this program consist of letters and digits only, so
a stop word containing an apostrophe can never be matched. -/
def stopWords : List String :=
  ["i", "me", "my", "myself", "we", "our", "ours", "ourselves", "you",
   "your", "yours", "yourself", "yourselves", "he", "him", "his",
   "himself", "she", "her", "hers", "herself", "it", "its", "itself",
   "they", "them", "their", "theirs", "themselves", "what", "which",
   "who", "whom", "this", "that", "these", "those", "am", "is", "are",
   "was", "were", "be", "been", "being", "have", "has", "had", "having",
   "do", "does", "did", "doing", "will", "would", "shall", "should",
   "can", "could", "may", "might", "must", "ought", "cannot", "a", "an",
   "the", "and", "but", "if", "or", "because", "as", "until", "while",
   "of", "at", "by", "for", "with", "about", "against", "between",
   "into", "through", "during", "before", "after", "above", "below",
   "to", "from", "up", "down", "in", "out", "on", "off", "over", "under",
   "again", "further", "then", "once", "here", "there", "when", "where",
   "why", "how", "all", "any", "both", "each", "few", "more", "most",
   "other", "some", "such", "no", "nor", "not", "only", "own", "same",
   "so", "than", "too", "very"]

/-- Stop-word test on a character-list word. -/
def isStopWordL (w : List Char) : Bool := stopWords.any (fun s => s.data == w)

/-! ### The Snowball English (Porter2) stemmer

Modelled from the spec: `english.Stem(word, true)` of the external snowball
dependency; the definitions below follow the published Snowball English
stemmer (lower-casing restricted to ASCII, which covers every input in the
claims).  Region positions `R1`/`R2` are computed once after the prelude and
kept fixed through the steps, as in the Snowball program. -/

/-- The apostrophe character (written via its code so that the source text
never contains a bare quote character). -/
def apoChar : Char := Char.ofNat 39

/-- Vowels of the Snowball English stemmer (a marked `Y` is a consonant). -/
def isVowelChar (c : Char) : Bool :=
  c = 'a' || c = 'e' || c = 'i' || c = 'o' || c = 'u' || c = 'y'

/-- Exceptional forms checked before the algorithm proper (exception1). -/
def exceptionalForms : List (String × String) :=
  [("skis", "ski"), ("skies", "sky"), ("dying", "die"), ("lying", "lie"),
   ("tying", "tie"), ("idly", "idl"), ("gently", "gentl"), ("ugly", "ugli"),
   ("early", "earli"), ("only", "onli"), ("singly", "singl"),
   ("sky", "sky"), ("news", "news"), ("howe", "howe"), ("atlas", "atlas"),
   ("cosmos", "cosmos"), ("bias", "bias"), ("andes", "andes")]

/-- Look the word up among the exceptional forms. -/
def findException (w : List Char) : Option (List Char) :=
  (exceptionalForms.find? (fun p => p.1.data == w)).map (fun p => p.2.data)

/-- Invariant forms after step 1a (exception2). -/
def exception2List : List String :=
  ["inning", "outing", "canning", "herring", "earring",
   "proceed", "exceed", "succeed"]

def isException2 (w : List Char) : Bool := exception2List.any (fun s => s.data == w)

/-- Remove one initial apostrophe (Snowball prelude). -/
def trimLeadApo (w : List Char) : List Char :=
  match w with
  | c :: rest => if c = apoChar then rest else w
  | [] => []

/-- Mark `y` as a consonant `Y` when it is the initial letter or follows a
vowel.  The flag says whether a `y` at the current position must be marked. -/
def markYsAux : Bool → List Char → List Char
  | _, [] => []
  | markNext, c :: rest =>
    if c = 'y' && markNext then 'Y' :: markYsAux false rest
    else c :: markYsAux (isVowelChar c) rest

def markYs (w : List Char) : List Char := markYsAux true w

/-- Position (from the current start) just after the first non-vowel that
follows a vowel; the length of the remainder when there is none. -/
def standardRAux : Bool → List Char → Nat
  | _, [] => 0
  | seenVowel, c :: rest =>
    if seenVowel && !isVowelChar c then 1
    else 1 + standardRAux (seenVowel || isVowelChar c) rest

/-- Start position of `R1`; the words beginning `gener`, `commun`, `arsen`
have `R1` right after that beginning. -/
def r1Pos (w : List Char) : Nat :=
  if w.take 5 == "gener".data then 5
  else if w.take 6 == "commun".data then 6
  else if w.take 5 == "arsen".data then 5
  else standardRAux false w

/-- Start position of `R2`: the same computation applied inside `R1`. -/
def r2Pos (w : List Char) (r1 : Nat) : Nat := r1 + standardRAux false (w.drop r1)

/-- Does `w` end with `s`? -/
def endsWithL (w s : List Char) : Bool := s == w.drop (w.length - s.length)

/-- Replace an `n`-character suffix by `rep`. -/
def replaceSuffixL (w : List Char) (n : Nat) (rep : List Char) : List Char :=
  w.take (w.length - n) ++ rep

/-- Is a suffix of length `n` entirely inside the region starting at `rpos`? -/
def inRegion (w : List Char) (rpos n : Nat) : Bool := decide (rpos + n ≤ w.length)

/-- The character immediately before an `n`-character suffix, if any. -/
def charBefore (w : List Char) (n : Nat) : Option Char :=
  (w.take (w.length - n)).getLast?

/-- Step 0: strip the longest of the suffixes apostrophe-s-apostrophe,
apostrophe-s, apostrophe. -/
def step0 (w : List Char) : List Char :=
  if endsWithL w [apoChar, 's', apoChar] then w.take (w.length - 3)
  else if endsWithL w [apoChar, 's'] then w.take (w.length - 2)
  else if endsWithL w [apoChar] then w.take (w.length - 1)
  else w

/-- Step 1a: plural-like suffixes. -/
def step1a (w : List Char) : List Char :=
  if endsWithL w "sses".data then replaceSuffixL w 4 "ss".data
  else if endsWithL w "ied".data || endsWithL w "ies".data then
    if 1 < w.length - 3 then replaceSuffixL w 3 "i".data
    else replaceSuffixL w 3 "ie".data
  else if endsWithL w "us".data || endsWithL w "ss".data then w
  else if endsWithL w "s".data then
    if (w.take (w.length - 2)).any isVowelChar then w.take (w.length - 1) else w
  else w

/-- Does the word end in a short syllable? -/
def isShortSyllableEnd (w : List Char) : Bool :=
  match w.reverse with
  | [c1, c2] => isVowelChar c2 && !isVowelChar c1
  | c1 :: c2 :: c3 :: _ =>
    !isVowelChar c1 && c1 ≠ 'w' && c1 ≠ 'x' && c1 ≠ 'Y' &&
      isVowelChar c2 && !isVowelChar c3
  | _ => false

/-- A word is short when `R1` is empty and it ends in a short syllable. -/
def isShortWord (w : List Char) (r1 : Nat) : Bool :=
  decide (w.length ≤ r1) && isShortSyllableEnd w

/-- Doubled consonant ending (bb dd ff gg mm nn pp rr tt). -/
def isDoubleEnd (w : List Char) : Bool :=
  match w.reverse with
  | c1 :: c2 :: _ =>
    c1 = c2 && (c1 = 'b' || c1 = 'd' || c1 = 'f' || c1 = 'g' || c1 = 'm' ||
      c1 = 'n' || c1 = 'p' || c1 = 'r' || c1 = 't')
  | _ => false

/-- Adjustment after deleting `ed`/`edly`/`ing`/`ingly` in step 1b. -/
def step1bPost (st : List Char) (r1 : Nat) : List Char :=
  if endsWithL st "at".data || endsWithL st "bl".data || endsWithL st "iz".data then
    st ++ ['e']
  else if isDoubleEnd st then st.take (st.length - 1)
  else if isShortWord st r1 then st ++ ['e']
  else st

/-- Deletion branch of step 1b: drop the `n`-character suffix when the
remaining part contains a vowel, then adjust. -/
def step1bDel (w : List Char) (r1 n : Nat) : List Char :=
  let st := w.take (w.length - n)
  if st.any isVowelChar then step1bPost st r1 else w

/-- Step 1b: `eed(ly)` and `ed/ing(ly)` suffixes, longest match first. -/
def step1b (w : List Char) (r1 : Nat) : List Char :=
  if endsWithL w "eedly".data then
    if inRegion w r1 5 then replaceSuffixL w 5 "ee".data else w
  else if endsWithL w "ingly".data then step1bDel w r1 5
  else if endsWithL w "edly".data then step1bDel w r1 4
  else if endsWithL w "eed".data then
    if inRegion w r1 3 then replaceSuffixL w 3 "ee".data else w
  else if endsWithL w "ing".data then step1bDel w r1 3
  else if endsWithL w "ed".data then step1bDel w r1 2
  else w

/-- Step 1c: final `y`/`Y` becomes `i` after a non-vowel that is not the
first letter. -/
def step1c (w : List Char) : List Char :=
  match w.reverse with
  | c1 :: c2 :: rest =>
    if (c1 = 'y' || c1 = 'Y') && !isVowelChar c2 && !rest.isEmpty then
      w.take (w.length - 1) ++ ['i']
    else w
  | _ => w

/-- Helper for steps 2-4: if the longest matching suffix has length `n` and
lies in the region starting at `rpos`, replace it by `rep`, else leave the
word unchanged (Snowball `among` semantics: no shorter suffix is tried). -/
def replaceIfInRegion (w : List Char) (rpos n : Nat) (rep : List Char) : List Char :=
  if inRegion w rpos n then replaceSuffixL w n rep else w

/-- Valid `li`-ending predecessors for the step-2 `li` rule. -/
def liEnding (o : Option Char) : Bool :=
  match o with
  | some c =>
    c = 'c' || c = 'd' || c = 'e' || c = 'g' || c = 'h' || c = 'k' ||
      c = 'm' || c = 'n' || c = 'r' || c = 't'
  | none => false

/-- Step 2 (conditions in `R1`), suffixes ordered longest first. -/
def step2 (w : List Char) (r1 : Nat) : List Char :=
  if endsWithL w "ational".data then replaceIfInRegion w r1 7 "ate".data
  else if endsWithL w "ization".data then replaceIfInRegion w r1 7 "ize".data
  else if endsWithL w "fulness".data then replaceIfInRegion w r1 7 "ful".data
  else if endsWithL w "ousness".data then replaceIfInRegion w r1 7 "ous".data
  else if endsWithL w "iveness".data then replaceIfInRegion w r1 7 "ive".data
  else if endsWithL w "tional".data then replaceIfInRegion w r1 6 "tion".data
  else if endsWithL w "biliti".data then replaceIfInRegion w r1 6 "ble".data
  else if endsWithL w "lessli".data then replaceIfInRegion w r1 6 "less".data
  else if endsWithL w "iviti".data then replaceIfInRegion w r1 5 "ive".data
  else if endsWithL w "ation".data then replaceIfInRegion w r1 5 "ate".data
  else if endsWithL w "alism".data then replaceIfInRegion w r1 5 "al".data
  else if endsWithL w "aliti".data then replaceIfInRegion w r1 5 "al".data
  else if endsWithL w "ousli".data then replaceIfInRegion w r1 5 "ous".data
  else if endsWithL w "entli".data then replaceIfInRegion w r1 5 "ent".data
  else if endsWithL w "fulli".data then replaceIfInRegion w r1 5 "ful".data
  else if endsWithL w "enci".data then replaceIfInRegion w r1 4 "ence".data
  else if endsWithL w "anci".data then replaceIfInRegion w r1 4 "ance".data
  else if endsWithL w "abli".data then replaceIfInRegion w r1 4 "able".data
  else if endsWithL w "izer".data then replaceIfInRegion w r1 4 "ize".data
  else if endsWithL w "ator".data then replaceIfInRegion w r1 4 "ate".data
  else if endsWithL w "alli".data then replaceIfInRegion w r1 4 "al".data
  else if endsWithL w "bli".data then replaceIfInRegion w r1 3 "ble".data
  else if endsWithL w "ogi".data then
    if inRegion w r1 3 && charBefore w 3 == some 'l' then
      replaceSuffixL w 3 "og".data
    else w
  else if endsWithL w "li".data then
    if inRegion w r1 2 && liEnding (charBefore w 2) then w.take (w.length - 2)
    else w
  else w

/-- Step 3 (conditions in `R1`; `ative` needs `R2`). -/
def step3 (w : List Char) (r1 r2 : Nat) : List Char :=
  if endsWithL w "ational".data then replaceIfInRegion w r1 7 "ate".data
  else if endsWithL w "tional".data then replaceIfInRegion w r1 6 "tion".data
  else if endsWithL w "alize".data then replaceIfInRegion w r1 5 "al".data
  else if endsWithL w "icate".data then replaceIfInRegion w r1 5 "ic".data
  else if endsWithL w "iciti".data then replaceIfInRegion w r1 5 "ic".data
  else if endsWithL w "ative".data then replaceIfInRegion w r2 5 []
  else if endsWithL w "ical".data then replaceIfInRegion w r1 4 "ic".data
  else if endsWithL w "ness".data then replaceIfInRegion w r1 4 []
  else if endsWithL w "ful".data then replaceIfInRegion w r1 3 []
  else w

/-- Step 4 (conditions in `R2`), suffixes ordered longest first. -/
def step4 (w : List Char) (r2 : Nat) : List Char :=
  if endsWithL w "ement".data then replaceIfInRegion w r2 5 []
  else if endsWithL w "ance".data then replaceIfInRegion w r2 4 []
  else if endsWithL w "ence".data then replaceIfInRegion w r2 4 []
  else if endsWithL w "able".data then replaceIfInRegion w r2 4 []
  else if endsWithL w "ible".data then replaceIfInRegion w r2 4 []
  else if endsWithL w "ment".data then replaceIfInRegion w r2 4 []
  else if endsWithL w "ant".data then replaceIfInRegion w r2 3 []
  else if endsWithL w "ent".data then replaceIfInRegion w r2 3 []
  else if endsWithL w "ism".data then replaceIfInRegion w r2 3 []
  else if endsWithL w "ate".data then replaceIfInRegion w r2 3 []
  else if endsWithL w "iti".data then replaceIfInRegion w r2 3 []
  else if endsWithL w "ous".data then replaceIfInRegion w r2 3 []
  else if endsWithL w "ive".data then replaceIfInRegion w r2 3 []
  else if endsWithL w "ize".data then replaceIfInRegion w r2 3 []
  else if endsWithL w "ion".data then
    if inRegion w r2 3 && (charBefore w 3 == some 's' || charBefore w 3 == some 't') then
      w.take (w.length - 3)
    else w
  else if endsWithL w "al".data then replaceIfInRegion w r2 2 []
  else if endsWithL w "er".data then replaceIfInRegion w r2 2 []
  else if endsWithL w "ic".data then replaceIfInRegion w r2 2 []
  else w

/-- Step 5: final `e` deleted in `R2`, or in `R1` when not preceded by a
short syllable; final `l` deleted in `R2` after another `l`. -/
def step5 (w : List Char) (r1 r2 : Nat) : List Char :=
  if endsWithL w "e".data then
    if inRegion w r2 1 ||
        (inRegion w r1 1 && !isShortSyllableEnd (w.take (w.length - 1))) then
      w.take (w.length - 1)
    else w
  else if endsWithL w "l".data then
    if inRegion w r2 1 && charBefore w 1 == some 'l' then w.take (w.length - 1)
    else w
  else w

/-- Unmark consonant `Y`s. -/
def unmarkYs (w : List Char) : List Char :=
  w.map (fun c => if c = 'Y' then 'y' else c)

/-- The complete stemmer on a character list (model of
`english.Stem(word, true)`: stop words are stemmed like any other word). -/
def stemList (w0 : List Char) : List Char :=
  let w := w0.map Char.toLower
  match findException w with
  | some r => r
  | none =>
    if w.length < 3 then w
    else
      let w := markYs (trimLeadApo w)
      let r1 := r1Pos w
      let r2 := r2Pos w r1
      let w := step1a (step0 w)
      if isException2 w then unmarkYs w
      else
        unmarkYs (step5 (step4 (step3 (step2 (step1c (step1b w r1)) r1) r1 r2) r2) r1 r2)

/-- Stemmer on strings. -/
def stemString (s : String) : String := String.mk (stemList s.data)

/-! ### `words.Norm` (words/words/words.go)

Tokens are stemmed; a stemmed token is kept when it is not a stop word and
has not been seen before (the Go `dict` set is exactly the set of elements
already appended to `keywords`). -/

/-- The keyword-accumulating loop of `Norm`. -/
def normFold (acc : List (List Char)) : List (List Char) → List (List Char)
  | [] => acc
  | w :: rest =>
    if isStopWordL w || acc.contains w then normFold acc rest
    else normFold (acc ++ [w]) rest

/-- The `Norm` pipeline on a character list. -/
def normList (cs : List Char) : List (List Char) :=
  normFold [] ((phraseTokens cs).map stemList)

/-- Model of `words.Norm`: ordered list of unique stemmed non-stop keywords. -/
def normKeywords (phrase : String) : List String :=
  (normList phrase.data).map String.mk

/-- First-occurrence deduplication with stop-words removed: the reference
formulation of the spec's "ordered list of distinct keywords in
first-occurrence order", proved below to coincide with `normFold`. -/
def firstOccFilter (seen : List (List Char)) : List (List Char) → List (List Char)
  | [] => []
  | w :: rest =>
    if isStopWordL w || seen.contains w then firstOccFilter seen rest
    else w :: firstOccFilter (w :: seen) rest

/-! ### Search service core (search/adapters/grpc/server.go, core part)

`Comic` is the `(id, url)` pair streamed back to the gateway; `ComicInfo`
additionally carries the keyword list stored for the entry. -/

structure Comic where
  id : Int
  url : String
deriving DecidableEq, Repr

structure ComicInfo where
  comic : Comic
  words : List String
deriving DecidableEq, Repr

structure ComicRank where
  comic : Comic
  matched : Int
  total : Int
deriving DecidableEq, Repr

/-- The `less` function of `sort.Slice` in `rankedSearch`: by `matched`
descending, ties by the cross-multiplied `matched/total` ratio descending. -/
def rankLTb (a b : ComicRank) : Bool :=
  if a.matched ≠ b.matched then decide (a.matched > b.matched)
  else decide (a.matched * b.total > b.matched * a.total)

/-- Relation letting `a` be placed before `b`: `b` is not strictly ranked above `a`. -/
def rankLE (a b : ComicRank) : Prop := rankLTb b a = false

instance : DecidableRel rankLE := fun a b => instDecidableEqBool (rankLTb b a) false

/-- The sorting pass of `rankedSearch`.  `sort.Slice` is an unstable sort
whose output is sorted with respect to the comparator; it is modelled by
insertion sort with the corresponding total preorder. -/
def sortRanks (rs : List ComicRank) : List ComicRank := List.insertionSort rankLE rs

/-- The number of stored keywords of the entry that hit the phrase set, and
the rank entry built from it (`matched`/`total` loop of `rankedSearch`). -/
def matchedCount (P : List String) (c : ComicInfo) : Int :=
  ((c.words.filter (fun w => P.contains w)).length : Int)

/-- The filtering loop of `rankedSearch`: entries with `matched == 0` are
dropped, the others carry their match count and total word count. -/
def ranksOf (P : List String) (catalog : List ComicInfo) : List ComicRank :=
  catalog.filterMap (fun c =>
    if matchedCount P c = 0 then none
    else some ⟨c.comic, matchedCount P c, (c.words.length : Int)⟩)

/-- Model of `rankedSearch`: filter, sort, truncate to `min len limit`. -/
def rankedSearch (catalog : List ComicInfo) (P : List String) (limit : Int) : List Comic :=
  if catalog.isEmpty then []
  else
    let rs := ranksOf P catalog
    if rs.isEmpty then []
    else
      let sorted := sortRanks rs
      ((sorted.take (min (sorted.length : Int) limit).toNat).map ComicRank.comic)

inductive SearchErr where
  | badArguments
deriving DecidableEq, Repr

/-- Model of `Service.Search`: validate, normalize the phrase, read the whole catalog
(given here as `catalog`), rank.  The phrase keyword set `setOfPhrase` is
membership in `normKeywords phrase`. -/
def searchFullScan (catalog : List ComicInfo) (phrase : String) (limit : Int) :
    Except SearchErr (List Comic) :=
  if phrase = "" || limit ≤ 0 then .error .badArguments
  else .ok (rankedSearch catalog (normKeywords phrase) limit)

/-! ### `Service.ISearch` (indexed ranker)

The inverted index is an association list keyword to posting list; the
store is a partial map from id to url (`id` is the primary key of the
`comics` table, so `GetComicsByIds` yields at most one row per id, and only
for requested ids).  The Go `scores` map is modelled as a total function
`Int → Nat`; a key is present in the Go map exactly when its count here is
nonzero, because every value ever stored is at least 1. -/

/-- Posting-list lookup; a missing keyword yields the empty list
(Go map zero value). -/
def indexLookup (index : List (String × List Int)) (kw : String) : List Int :=
  match index.find? (fun p => p.1 == kw) with
  | some p => p.2
  | none => []

/-- One posting-list element: record a first-seen id, bump its score. -/
def iSearchStep (acc : (Int → Nat) × List Int) (id : Int) : (Int → Nat) × List Int :=
  let newIds := if acc.1 id = 0 then acc.2 ++ [id] else acc.2
  (fun j => if j = id then acc.1 j + 1 else acc.1 j, newIds)

/-- The score/unique-id accumulation loop over all keywords. -/
def iSearchAcc (index : List (String × List Int)) (keywords : List String) :
    (Int → Nat) × List Int :=
  keywords.foldl (fun acc kw => (indexLookup index kw).foldl iSearchStep acc)
    ((fun _ => 0), [])

/-- Model of `Service.ISearch`: validate, normalize, accumulate scores and first-seen
unique ids under the reader lock, load the rows, sort by score descending,
truncate. -/
def iSearch (index : List (String × List Int)) (store : Int → Option String)
    (phrase : String) (limit : Int) : Except SearchErr (List Comic) :=
  if phrase = "" || limit ≤ 0 then .error .badArguments
  else
    let acc := iSearchAcc index (normKeywords phrase)
    let comics := acc.2.filterMap (fun id => (store id).map (fun url => ⟨id, url⟩))
    let sorted := List.insertionSort (fun a b : Comic => acc.1 b.id ≤ acc.1 a.id) comics
    .ok (sorted.take (min (sorted.length : Int) limit).toNat)

/-! ### Updater (update/core/service.go) -/

/-- Error kinds of the update core (`errors.go`); `fmt.Errorf` with `%w`
preserves the kind for `errors.Is`, so wrapping is modelled as identity on
the kind. -/
inductive ErrKind where
  | badArguments
  | alreadyExists
  | notFound
  | serviceUnavailable
  | other
deriving DecidableEq, Repr

/-- Upstream `XKCDInfo` as used by the worker. -/
structure XKCDInfo where
  id : Int
  url : String
  title : String
  safeTitle : String
  transcript : String
  alt : String
deriving DecidableEq, Repr

/-- A catalog entry produced by the updater. -/
structure Entry where
  id : Int
  url : String
  words : List String
deriving DecidableEq, Repr

/-- Model of `makeDescription`: the four title fields joined by single spaces. -/
def makeDescription (info : XKCDInfo) : String :=
  String.intercalate " " [info.safeTitle, info.title, info.transcript, info.alt]

/-- One worker loop iteration for one id: the tombstone id 404 is emitted
directly (url and words are the Go zero values) without consulting
`fetch`; an upstream not-found or any other upstream/normalization failure
yields the skip sentinel `none` (`results <- nil`). -/
def workerStep (fetch : Int → Except ErrKind XKCDInfo)
    (norm : String → Except ErrKind (List String)) (id : Int) : Option Entry :=
  if id = 404 then some ⟨404, "", []⟩
  else
    match fetch id with
    | .error _ => none
    | .ok info =>
      match norm (makeDescription info) with
      | .error _ => none
      | .ok keywords => some ⟨info.id, info.url, keywords⟩

/-- Collect the produced entries, dropping skip sentinels
(`if comic != nil` in the collection loop). -/
def collectEntries (outs : List (Option Entry)) : List Entry :=
  outs.filterMap id

/-- The tail of `Service.Update` after the workers are done: an empty batch
returns success touching neither the store nor the broker; otherwise the
batch insert runs, and only when it succeeds is the update event published,
whose own failure (`publishOk = false`) is logged and ignored.  The boolean
result records whether a publish was attempted. -/
def updateCommit (entries : List Entry) (add : List Entry → Except ErrKind Unit)
    (publishOk : Bool) : Except ErrKind Unit × Bool :=
  if entries.isEmpty then (.ok (), false)
  else
    match add entries with
    | .error e => (.error e, false)
    | .ok () => (.ok (), true)

/-- Sequential model of `Service.Update`: CAS on `in_progress`, read existing
ids, ask upstream for the last id, run the worker body over the missing ids
`1..=N` (worker output order does not affect any property stated below),
commit.  Result: the returned error kind (if any), whether an insert was
attempted, whether a publish was attempted. -/
def updateRun (inProgress : Bool) (dbIDs : Except ErrKind (List Int))
    (lastID : Except ErrKind Int) (fetch : Int → Except ErrKind XKCDInfo)
    (norm : String → Except ErrKind (List String))
    (add : List Entry → Except ErrKind Unit) (publishOk : Bool) :
    Except ErrKind Unit × Bool × Bool :=
  if inProgress then (.error .alreadyExists, false, false)
  else
    match dbIDs with
    | .error e => (.error e, false, false)
    | .ok ids =>
      match lastID with
      | .error e => (.error e, false, false)
      | .ok n =>
        let jobs := ((List.range n.toNat).map (fun k => (k : Int) + 1)).filter
          (fun id => !ids.contains id)
        let entries := collectEntries (jobs.map (workerStep fetch norm))
        let (res, published) := updateCommit entries add publishOk
        (res, !entries.isEmpty, published)

/-- Error mapping of the update gRPC server (`Server.Update`):
`AlreadyExists` keeps its code, everything else becomes `Internal`. -/
inductive GrpcCode where
  | ok
  | alreadyExists
  | internal
  | unavailable
deriving DecidableEq, Repr

def updateGrpcCode (r : Except ErrKind Unit) : GrpcCode :=
  match r with
  | .ok () => .ok
  | .error .alreadyExists => .alreadyExists
  | .error _ => .internal

/-! ### Update/Drop exclusivity (the `in_progress` flag)

Both `Service.Update` and `Service.Drop` start with
`inProgress.CompareAndSwap(false, true)` and `defer inProgress.Store(false)`.
The labelled transition system below models exactly these three atomic
actions; `running` is the list of operations between a successful CAS and
the release. -/

inductive UDOp where
  | update
  | drop
deriving DecidableEq, Repr

structure UDState where
  inProgress : Bool
  running : List UDOp
deriving DecidableEq, Repr

inductive UDLabel where
  /-- a call to Update/Drop whose CAS succeeded -/
  | beginOk (op : UDOp)
  /-- a call that found the flag set and returned `AlreadyInProgress`
  without touching the catalog: the state is unchanged -/
  | beginBusy (op : UDOp)
  /-- completion of a running operation: `inProgress.Store(false)` -/
  | finish (op : UDOp)

/-- One atomic step of the exclusivity protocol. -/
inductive UDStep : UDState → UDLabel → UDState → Prop where
  | beginOk (op : UDOp) (s : UDState) (h : s.inProgress = false) :
      UDStep s (.beginOk op) ⟨true, op :: s.running⟩
  | beginBusy (op : UDOp) (s : UDState) (h : s.inProgress = true) :
      UDStep s (.beginBusy op) s
  | finish (op : UDOp) (s : UDState) (h : op ∈ s.running) :
      UDStep s (.finish op) ⟨false, s.running.erase op⟩

/-- Initial state: idle, nothing running. -/
def udInit : UDState := ⟨false, []⟩

/-- Reachability from the initial state. -/
inductive UDReachable : UDState → Prop where
  | init : UDReachable udInit
  | step {s l t} : UDReachable s → UDStep s l t → UDReachable t

/-! ### Token-bucket rate limiter (middleware rate limiter)

The float state is modelled over `ℚ`.  `wait` is a function of the bucket
state (`tokens`, with the elapsed time since `last` passed separately), the
request deadline slack (`deadline - now`, if any), and the cancellation
behaviour of the context: whether it is already cancelled at entry, and
whether it gets cancelled during the sleep.  The second component of the
result is the bucket `tokens` field after the call. -/

inductive WaitOutcome where
  | ok
  /-- The deadline refusal (rate: Wait would exceed context deadline). -/
  | errDeadline
  /-- Cancellation: `ctx.Err()` from the select on `ctx.Done()`. -/
  | errCancelled
deriving DecidableEq, Repr

/-- Model of `Limit.durationFromTokens`: `MaxInt64` nanoseconds when the limit is not
positive, else `tokens/limit` seconds. -/
def durationFromTokens (limit tokens : ℚ) : ℚ :=
  if limit ≤ 0 then (2 ^ 63 - 1 : ℚ) / 1000000000 else tokens / limit

/-- Model of `RateLimiter.tokensAt`: accrue `elapsed × limit`, clamp at `burst`
(the `Inf` limit of the Go code is not modelled: the constructor only ever
produces finite limits). -/
def tokensAt (limit burst tokens elapsed : ℚ) : ℚ :=
  min (tokens + max elapsed 0 * limit) burst

/-- Model of `RateLimiter.wait`, mirroring the Go control flow: early cancellation
check; recompute and store `tokens` at `now`; provisional consumption;
deadline check (which returns before the consumption is stored); sleep with
cancellation. -/
def rlWait (limit burst tokens elapsed : ℚ) (deadlineSlack : Option ℚ)
    (cancelledAtEntry cancelledDuringSleep : Bool) : WaitOutcome × ℚ :=
  if cancelledAtEntry then (.errCancelled, tokens)
  else
    let cur := tokensAt limit burst tokens elapsed
    let consumed := cur - 1
    let delay := if consumed < 0 then durationFromTokens limit (-consumed) else 0
    match deadlineSlack with
    | some slack =>
      if slack < delay then (.errDeadline, cur)
      else if delay ≤ 0 then (.ok, consumed)
      else if cancelledDuringSleep then (.errCancelled, consumed)
      else (.ok, consumed)
    | none =>
      if delay ≤ 0 then (.ok, consumed)
      else if cancelledDuringSleep then (.errCancelled, consumed)
      else (.ok, consumed)

/-- The HTTP status produced by `RateLimiter.Limit` for a wait outcome:
any error is answered with 408 Request Timeout, success dispatches to the
downstream handler (modelled as 200). -/
def rlStatus (o : WaitOutcome) : Nat :=
  match o with
  | .ok => 200
  | .errDeadline => 408
  | .errCancelled => 408

/-- Stop-word test on strings (`english.IsStopWord`). -/
def isStopWord (s : String) : Bool := isStopWordL s.data

/-- The phrase of scenario S3, built without quote characters in the source:
`Moscow!123'check-it'or   123, man,that,difficult:heck`. -/
def s3Phrase : String :=
  String.mk ("Moscow!123".data ++ [apoChar] ++ "check-it".data ++ [apoChar] ++
    "or   123, man,that,difficult:heck".data)

/-- A nonempty all-alphanumeric word. -/
def goodWord (w : List Char) : Prop :=
  w ≠ [] ∧ ∀ c ∈ w, isWordChar c = true

/-- The character-level form of `strings.Join(ws, " ")`. -/
def charJoin : List (List Char) → List Char
  | [] => []
  | [v] => v
  | v :: vs => v ++ ' ' :: charJoin vs

/-- The S4 catalog. -/
def catalogS4 : List ComicInfo :=
  [⟨⟨1, "url1"⟩, ["test", "phrase"]⟩,
   ⟨⟨2, "url2"⟩, ["test", "phrase", "unknown"]⟩,
   ⟨⟨3, "url3"⟩, ["test"]⟩]

/-- Invariant of the score/unique-id accumulator: the id list has no
duplicates and contains exactly the ids with a nonzero score. -/
def ISearchInv (acc : (Int → Nat) × List Int) : Prop :=
  acc.2.Nodup ∧ ∀ i, i ∈ acc.2 ↔ acc.1 i ≠ 0

/-- The sleep delay computed by `wait` (zero when a token was available). -/
def rlDelay (limit burst tokens elapsed : ℚ) : ℚ :=
  if tokensAt limit burst tokens elapsed - 1 < 0 then
    durationFromTokens limit (-(tokensAt limit burst tokens elapsed - 1))
  else 0

/-! ## Lemmas about the normalization loop -/

example : normKeywords "I follow followers" = ["follow"] := by decide
example : normKeywords "simple" = ["simpl"] := by decide
example : normKeywords "GoLang GOLANG golang" = ["golang"] := by decide
example : normKeywords "123 456 789" = ["123", "456", "789"] := by decide
example : normKeywords "early" = ["earli"] := by decide
example : normKeywords "earli" = ["ear"] := by decide

theorem normFold_eq_firstOccFilter (ws : List (List Char)) :
    ∀ acc seen, (∀ x, acc.contains x = seen.contains x) →
      normFold acc ws = acc ++ firstOccFilter seen ws := by
  induction ws with
  | nil => intro acc seen _; simp [normFold, firstOccFilter]
  | cons w rest ih =>
    intro acc seen hmem
    by_cases hstop : isStopWordL w = true
    · simp only [normFold, firstOccFilter, hstop, Bool.true_or, if_true]
      exact ih acc seen hmem
    · rw [Bool.not_eq_true] at hstop
      by_cases hc : acc.contains w = true
      · have hc' : seen.contains w = true := (hmem w) ▸ hc
        simp only [normFold, firstOccFilter, hstop, hc, hc', Bool.false_or, if_true]
        exact ih acc seen hmem
      · rw [Bool.not_eq_true] at hc
        have hc' : seen.contains w = false := (hmem w) ▸ hc
        simp only [normFold, firstOccFilter, hstop, hc, hc', Bool.false_or, if_false]
        rw [ih (acc ++ [w]) (w :: seen) ?_]
        · simp
        · intro x
          have h := hmem x
          simp only [List.contains, List.elem_eq_mem, decide_eq_decide] at h ⊢
          simp only [List.mem_append, List.mem_cons, List.mem_singleton]
          rw [h]
          tauto

theorem firstOccFilter_spec (ws : List (List Char)) :
    ∀ seen, (firstOccFilter seen ws).Nodup ∧
      ∀ w ∈ firstOccFilter seen ws,
        seen.contains w = false ∧ isStopWordL w = false := by
  induction ws with
  | nil => intro seen; simp [firstOccFilter]
  | cons w rest ih =>
    intro seen
    simp only [firstOccFilter]
    split
    · exact ⟨(ih seen).1, fun x hx => (ih seen).2 x hx⟩
    · rename_i hcond
      rw [Bool.or_eq_true, not_or, Bool.not_eq_true, Bool.not_eq_true] at hcond
      refine ⟨?_, ?_⟩
      · refine List.nodup_cons.mpr ⟨?_, (ih (w :: seen)).1⟩
        intro hw
        have := ((ih (w :: seen)).2 w hw).1
        simp [List.contains_cons] at this
      · intro x hx
        rcases List.mem_cons.mp hx with h | h
        · subst h; exact ⟨hcond.2, hcond.1⟩
        · have hx' := (ih (w :: seen)).2 x h
          refine ⟨?_, hx'.2⟩
          have := hx'.1
          simp only [List.contains_cons, Bool.or_eq_false_iff] at this
          exact this.2

theorem normList_characterization (cs : List Char) :
    normList cs = firstOccFilter [] ((phraseTokens cs).map stemList) := by
  rw [normList, normFold_eq_firstOccFilter _ [] []]
  · simp
  · intro x; rfl


theorem stringMk_injective : Function.Injective String.mk := by
  intro a b h
  exact congrArg String.data h

/-- C4 helper: soundness facts for `normList`. -/
theorem normList_facts (cs : List Char) :
    (normList cs).Nodup ∧ ∀ w ∈ normList cs, isStopWordL w = false := by
  rw [normList_characterization]
  refine ⟨(firstOccFilter_spec _ []).1, ?_⟩
  intro w hw
  exact ((firstOccFilter_spec _ []).2 w hw).2

/-- Claim C4:  For every input phrase, `Norm` returns the ordered list of
distinct keywords in first-occurrence order: it equals the first-occurrence
deduplication (with stop words removed) of the stemmed lower-cased token
sequence of the phrase, it contains no duplicate element, and none of its
elements is a stop word of the English Snowball list. -/
theorem C4_norm_unique_first_occurrence (phrase : String) :
    normKeywords phrase =
      (firstOccFilter [] ((phraseTokens phrase.data).map stemList)).map String.mk ∧
    (normKeywords phrase).Nodup ∧
    ∀ w ∈ normKeywords phrase, isStopWord w = false := by
  obtain ⟨hnd, hstop⟩ := normList_facts phrase.data
  refine ⟨?_, ?_, ?_⟩
  · rw [normKeywords, normList_characterization]
  · exact hnd.map stringMk_injective
  · intro w hw
    rcases List.mem_map.mp hw with ⟨v, hv, rfl⟩
    exact hstop v hv

/-- Witness for C4 at a concrete phrase: the keyword `follow` produced for
`"I follow followers"` is not a stop word. -/
theorem C4_norm_unique_first_occurrence_witness :
    isStopWord "follow" = false :=
  (C4_norm_unique_first_occurrence "I follow followers").2.2 "follow" (by decide)


/-- Claim C5 counterexample:  On the S3 input, `Norm` does not return the list
claimed by the spec: the token `123` occurs before `check` in the phrase, so
first-occurrence order places `123` first. -/

theorem C5_counterexample :
    normKeywords s3Phrase ≠ ["moscow", "check", "123", "man", "difficult", "heck"] := by
  decide

/-- Claim C5 amended:  On the S3 input, `Norm` returns exactly
`[moscow, 123, check, man, difficult, heck]` (same keyword set as claimed,
in true first-occurrence order). -/
theorem C5_norm_weird_amended :
    normKeywords s3Phrase = ["moscow", "123", "check", "man", "difficult", "heck"] := by
  decide

/-! ## Shape of stemmed tokens

Every token produced by `phraseTokens` is a nonempty list of letters and
digits, and the stemmer preserves this shape.  These facts let a space-join
of normalization output be re-split into exactly the same tokens. -/


theorem wc_toLower (c : Char) (h : isWordChar c = true) :
    isWordChar c.toLower = true := by
  unfold Char.toLower
  by_cases hb : c.toNat ≥ 65 ∧ c.toNat ≤ 90
  · simp only [if_pos hb]
    obtain ⟨h1, h2⟩ := hb
    set n := c.toNat with hn
    interval_cases n <;> decide
  · simp only [if_neg hb]
    exact h

theorem endsWithL_mem {w s : List Char} (h : endsWithL w s = true) :
    ∀ c ∈ s, c ∈ w := by
  unfold endsWithL at h
  have hs : s = w.drop (w.length - s.length) := beq_iff_eq.mp h
  intro c hc
  rw [hs] at hc
  exact List.mem_of_mem_drop hc

theorem goodWord_of_take_pos {w : List Char} (hw : ∀ c ∈ w, isWordChar c = true)
    {n k : Nat} (hk : 1 ≤ k) (h : k + n ≤ w.length) :
    goodWord (w.take (w.length - n)) := by
  constructor
  · have hlen : (w.take (w.length - n)).length = w.length - n := by
      rw [List.length_take]
      omega
    intro hnil
    rw [hnil] at hlen
    simp at hlen
    omega
  · intro c hc
    exact hw c (List.mem_of_mem_take hc)

theorem goodWord_replaceSuffixL {w rep : List Char}
    (hw : ∀ c ∈ w, isWordChar c = true) (hrep : ∀ c ∈ rep, isWordChar c = true)
    (hne : rep ≠ []) (n : Nat) : goodWord (replaceSuffixL w n rep) := by
  unfold replaceSuffixL
  constructor
  · simp [hne]
  · intro c hc
    rcases List.mem_append.mp hc with h | h
    · exact hw c (List.mem_of_mem_take h)
    · exact hrep c h

theorem goodWord_replaceIfInRegion {w rep : List Char} {rpos n : Nat}
    (hw : goodWord w) (hrep : ∀ c ∈ rep, isWordChar c = true)
    (hr : 1 ≤ rpos) : goodWord (replaceIfInRegion w rpos n rep) := by
  unfold replaceIfInRegion
  split_ifs with h
  · unfold inRegion at h
    have hle : rpos + n ≤ w.length := of_decide_eq_true h
    cases hrepe : rep with
    | nil =>
      subst hrepe
      have := goodWord_of_take_pos hw.2 hr hle
      simpa [replaceSuffixL] using this
    | cons a as =>
      exact hrepe ▸ goodWord_replaceSuffixL hw.2 (hrepe ▸ hrep) (by simp [hrepe]) n
  · exact hw

theorem standardRAux_pos {w : List Char} (hne : w ≠ []) (b : Bool) :
    1 ≤ standardRAux b w := by
  cases w with
  | nil => exact absurd rfl hne
  | cons c rest =>
    unfold standardRAux
    split <;> omega

theorem r1Pos_pos {w : List Char} (hne : w ≠ []) : 1 ≤ r1Pos w := by
  unfold r1Pos
  split_ifs <;> first | omega | exact standardRAux_pos hne false

theorem r2Pos_pos {w : List Char} {r1 : Nat} (hr1 : 1 ≤ r1) : 1 ≤ r2Pos w r1 := by
  unfold r2Pos
  omega

theorem goodWord_step0 {w : List Char} (hw : goodWord w) : step0 w = w := by
  have hcontra : ∀ s : List Char, endsWithL w s = true → apoChar ∈ s → False := by
    intro s hs hmem
    have := hw.2 apoChar (endsWithL_mem hs apoChar hmem)
    exact absurd this (by decide)
  unfold step0
  split_ifs with h1 h2 h3
  · exact absurd (hcontra _ h1 (by simp)) id
  · exact absurd (hcontra _ h2 (by simp)) id
  · exact absurd (hcontra _ h3 (by simp)) id
  · rfl

theorem goodWord_trimLeadApo {w : List Char} (hw : goodWord w) :
    trimLeadApo w = w := by
  cases w with
  | nil => rfl
  | cons c rest =>
    show (if c = apoChar then rest else c :: rest) = c :: rest
    rw [if_neg]
    intro hc
    have := hw.2 c (List.mem_cons_self c rest)
    rw [hc] at this
    exact absurd this (by decide)

theorem markYsAux_shape (w : List Char) :
    ∀ b, (markYsAux b w).length = w.length ∧
      ∀ c ∈ markYsAux b w, c ∈ w ∨ c = 'Y' := by
  induction w with
  | nil => intro b; simp [markYsAux]
  | cons c rest ih =>
    intro b
    unfold markYsAux
    split_ifs with h
    · refine ⟨by simp [(ih false).1], ?_⟩
      intro x hx
      rcases List.mem_cons.mp hx with hx | hx
      · right; exact hx
      · rcases (ih false).2 x hx with h' | h'
        · left; exact List.mem_cons_of_mem c h'
        · right; exact h'
    · refine ⟨by simp [(ih (isVowelChar c)).1], ?_⟩
      intro x hx
      rcases List.mem_cons.mp hx with hx | hx
      · left; exact hx ▸ List.mem_cons_self c rest
      · rcases (ih (isVowelChar c)).2 x hx with h' | h'
        · left; exact List.mem_cons_of_mem c h'
        · right; exact h'

theorem goodWord_markYs {w : List Char} (hw : goodWord w) : goodWord (markYs w) := by
  unfold markYs
  constructor
  · intro hnil
    have := (markYsAux_shape w true).1
    rw [hnil] at this
    simp at this
    exact hw.1 (List.eq_nil_of_length_eq_zero this.symm)
  · intro c hc
    rcases (markYsAux_shape w true).2 c hc with h | h
    · exact hw.2 c h
    · rw [h]; decide

theorem goodWord_unmarkYs {w : List Char} (hw : goodWord w) :
    goodWord (unmarkYs w) := by
  unfold unmarkYs
  constructor
  · simp [hw.1]
  · intro c hc
    rcases List.mem_map.mp hc with ⟨x, hx, rfl⟩
    split_ifs with h
    · decide
    · exact hw.2 x hx

theorem goodWord_step1a {w : List Char} (hw : goodWord w) : goodWord (step1a w) := by
  unfold step1a
  split_ifs with h1 h2 h3 h4 h5 h6
  · exact goodWord_replaceSuffixL hw.2 (by decide) (by simp) 4
  · exact goodWord_replaceSuffixL hw.2 (by decide) (by simp) 3
  · exact goodWord_replaceSuffixL hw.2 (by decide) (by simp) 3
  · exact hw
  · have hne2 : w.take (w.length - 2) ≠ [] := by
      rcases List.any_eq_true.mp h6 with ⟨x, hx, _⟩
      exact List.ne_nil_of_mem hx
    have hlen : 3 ≤ w.length := by
      have := List.length_pos.mpr hne2
      rw [List.length_take] at this
      omega
    exact goodWord_of_take_pos hw.2 (k := 2) (by omega) (by omega)
  · exact hw
  · exact hw

theorem goodWord_step1bPost {st : List Char} {r1 : Nat} (hst : goodWord st) :
    goodWord (step1bPost st r1) := by
  unfold step1bPost
  split_ifs with h1 h2 h3
  · exact ⟨by simp, fun c hc => by
      rcases List.mem_append.mp hc with h | h
      · exact hst.2 c h
      · simp at h; rw [h]; decide⟩
  · have hlen : 2 ≤ st.length := by
      unfold isDoubleEnd at h2
      rcases hrev : st.reverse with _ | ⟨c1, t⟩
      · rw [hrev] at h2; simp at h2
      · rcases t with _ | ⟨c2, t'⟩
        · rw [hrev] at h2; simp at h2
        · have : st.length = st.reverse.length := (List.length_reverse st).symm
          rw [hrev] at this
          simp at this
          omega
    exact goodWord_of_take_pos hst.2 (k := 1) (by omega) (n := 1) (by omega)
  · exact ⟨by simp, fun c hc => by
      rcases List.mem_append.mp hc with h | h
      · exact hst.2 c h
      · simp at h; rw [h]; decide⟩
  · exact hst

theorem goodWord_step1bDel {w : List Char} {r1 n : Nat} (hw : goodWord w) :
    goodWord (step1bDel w r1 n) := by
  unfold step1bDel
  dsimp only
  split_ifs with h
  · refine goodWord_step1bPost ⟨?_, fun c hc => hw.2 c (List.mem_of_mem_take hc)⟩
    rcases List.any_eq_true.mp h with ⟨x, hx, _⟩
    exact List.ne_nil_of_mem hx
  · exact hw

theorem goodWord_step1b {w : List Char} {r1 : Nat} (hw : goodWord w) :
    goodWord (step1b w r1) := by
  unfold step1b
  split_ifs with h1 h2 h3 h4 h5 h6 h7 h8
  · exact goodWord_replaceSuffixL hw.2 (by decide) (by simp) 5
  · exact hw
  · exact goodWord_step1bDel hw
  · exact goodWord_step1bDel hw
  · exact goodWord_replaceSuffixL hw.2 (by decide) (by simp) 3
  · exact hw
  · exact goodWord_step1bDel hw
  · exact goodWord_step1bDel hw
  · exact hw

theorem goodWord_step1c {w : List Char} (hw : goodWord w) : goodWord (step1c w) := by
  unfold step1c
  split
  · split_ifs with h
    · exact ⟨by simp, fun c hc => by
        rcases List.mem_append.mp hc with h' | h'
        · exact hw.2 c (List.mem_of_mem_take h')
        · simp at h'; rw [h']; decide⟩
    · exact hw
  · exact hw

theorem goodWord_take_inRegion {w : List Char} {rpos n : Nat} (hw : goodWord w)
    (hr : 1 ≤ rpos) (h : inRegion w rpos n = true) :
    goodWord (w.take (w.length - n)) := by
  unfold inRegion at h
  exact goodWord_of_take_pos hw.2 hr (of_decide_eq_true h)

theorem goodWord_ite {c : Prop} [Decidable c] {a b : List Char}
    (ha : c → goodWord a) (hb : ¬c → goodWord b) :
    goodWord (if c then a else b) := by
  split_ifs with h
  · exact ha h
  · exact hb h

theorem goodWord_step2 {w : List Char} {r1 : Nat} (hw : goodWord w)
    (hr1 : 1 ≤ r1) : goodWord (step2 w r1) := by
  unfold step2
  refine goodWord_ite (fun _ => goodWord_replaceIfInRegion hw (by decide) hr1) (fun _ => ?_)
  refine goodWord_ite (fun _ => goodWord_replaceIfInRegion hw (by decide) hr1) (fun _ => ?_)
  refine goodWord_ite (fun _ => goodWord_replaceIfInRegion hw (by decide) hr1) (fun _ => ?_)
  refine goodWord_ite (fun _ => goodWord_replaceIfInRegion hw (by decide) hr1) (fun _ => ?_)
  refine goodWord_ite (fun _ => goodWord_replaceIfInRegion hw (by decide) hr1) (fun _ => ?_)
  refine goodWord_ite (fun _ => goodWord_replaceIfInRegion hw (by decide) hr1) (fun _ => ?_)
  refine goodWord_ite (fun _ => goodWord_replaceIfInRegion hw (by decide) hr1) (fun _ => ?_)
  refine goodWord_ite (fun _ => goodWord_replaceIfInRegion hw (by decide) hr1) (fun _ => ?_)
  refine goodWord_ite (fun _ => goodWord_replaceIfInRegion hw (by decide) hr1) (fun _ => ?_)
  refine goodWord_ite (fun _ => goodWord_replaceIfInRegion hw (by decide) hr1) (fun _ => ?_)
  refine goodWord_ite (fun _ => goodWord_replaceIfInRegion hw (by decide) hr1) (fun _ => ?_)
  refine goodWord_ite (fun _ => goodWord_replaceIfInRegion hw (by decide) hr1) (fun _ => ?_)
  refine goodWord_ite (fun _ => goodWord_replaceIfInRegion hw (by decide) hr1) (fun _ => ?_)
  refine goodWord_ite (fun _ => goodWord_replaceIfInRegion hw (by decide) hr1) (fun _ => ?_)
  refine goodWord_ite (fun _ => goodWord_replaceIfInRegion hw (by decide) hr1) (fun _ => ?_)
  refine goodWord_ite (fun _ => goodWord_replaceIfInRegion hw (by decide) hr1) (fun _ => ?_)
  refine goodWord_ite (fun _ => goodWord_replaceIfInRegion hw (by decide) hr1) (fun _ => ?_)
  refine goodWord_ite (fun _ => goodWord_replaceIfInRegion hw (by decide) hr1) (fun _ => ?_)
  refine goodWord_ite (fun _ => goodWord_replaceIfInRegion hw (by decide) hr1) (fun _ => ?_)
  refine goodWord_ite (fun _ => goodWord_replaceIfInRegion hw (by decide) hr1) (fun _ => ?_)
  refine goodWord_ite (fun _ => goodWord_replaceIfInRegion hw (by decide) hr1) (fun _ => ?_)
  refine goodWord_ite (fun _ => goodWord_replaceIfInRegion hw (by decide) hr1) (fun _ => ?_)
  refine goodWord_ite (fun _ => goodWord_ite
    (fun _ => goodWord_replaceSuffixL hw.2 (by decide) (by simp) 3)
    (fun _ => hw)) (fun _ => ?_)
  refine goodWord_ite (fun _ => goodWord_ite
    (fun h => goodWord_take_inRegion hw hr1 (Bool.and_eq_true_iff.mp h).1)
    (fun _ => hw)) (fun _ => hw)

theorem goodWord_step3 {w : List Char} {r1 r2 : Nat} (hw : goodWord w)
    (hr1 : 1 ≤ r1) (hr2 : 1 ≤ r2) : goodWord (step3 w r1 r2) := by
  unfold step3
  refine goodWord_ite (fun _ => goodWord_replaceIfInRegion hw (by decide) hr1) (fun _ => ?_)
  refine goodWord_ite (fun _ => goodWord_replaceIfInRegion hw (by decide) hr1) (fun _ => ?_)
  refine goodWord_ite (fun _ => goodWord_replaceIfInRegion hw (by decide) hr1) (fun _ => ?_)
  refine goodWord_ite (fun _ => goodWord_replaceIfInRegion hw (by decide) hr1) (fun _ => ?_)
  refine goodWord_ite (fun _ => goodWord_replaceIfInRegion hw (by decide) hr1) (fun _ => ?_)
  refine goodWord_ite (fun _ => goodWord_replaceIfInRegion hw (by decide) hr2) (fun _ => ?_)
  refine goodWord_ite (fun _ => goodWord_replaceIfInRegion hw (by decide) hr1) (fun _ => ?_)
  refine goodWord_ite (fun _ => goodWord_replaceIfInRegion hw (by decide) hr1) (fun _ => ?_)
  refine goodWord_ite (fun _ => goodWord_replaceIfInRegion hw (by decide) hr1) (fun _ => hw)

theorem goodWord_step4 {w : List Char} {r2 : Nat} (hw : goodWord w)
    (hr2 : 1 ≤ r2) : goodWord (step4 w r2) := by
  unfold step4
  refine goodWord_ite (fun _ => goodWord_replaceIfInRegion hw (by decide) hr2) (fun _ => ?_)
  refine goodWord_ite (fun _ => goodWord_replaceIfInRegion hw (by decide) hr2) (fun _ => ?_)
  refine goodWord_ite (fun _ => goodWord_replaceIfInRegion hw (by decide) hr2) (fun _ => ?_)
  refine goodWord_ite (fun _ => goodWord_replaceIfInRegion hw (by decide) hr2) (fun _ => ?_)
  refine goodWord_ite (fun _ => goodWord_replaceIfInRegion hw (by decide) hr2) (fun _ => ?_)
  refine goodWord_ite (fun _ => goodWord_replaceIfInRegion hw (by decide) hr2) (fun _ => ?_)
  refine goodWord_ite (fun _ => goodWord_replaceIfInRegion hw (by decide) hr2) (fun _ => ?_)
  refine goodWord_ite (fun _ => goodWord_replaceIfInRegion hw (by decide) hr2) (fun _ => ?_)
  refine goodWord_ite (fun _ => goodWord_replaceIfInRegion hw (by decide) hr2) (fun _ => ?_)
  refine goodWord_ite (fun _ => goodWord_replaceIfInRegion hw (by decide) hr2) (fun _ => ?_)
  refine goodWord_ite (fun _ => goodWord_replaceIfInRegion hw (by decide) hr2) (fun _ => ?_)
  refine goodWord_ite (fun _ => goodWord_replaceIfInRegion hw (by decide) hr2) (fun _ => ?_)
  refine goodWord_ite (fun _ => goodWord_replaceIfInRegion hw (by decide) hr2) (fun _ => ?_)
  refine goodWord_ite (fun _ => goodWord_replaceIfInRegion hw (by decide) hr2) (fun _ => ?_)
  refine goodWord_ite (fun _ => goodWord_ite
    (fun h => goodWord_take_inRegion hw hr2 (Bool.and_eq_true_iff.mp h).1)
    (fun _ => hw)) (fun _ => ?_)
  refine goodWord_ite (fun _ => goodWord_replaceIfInRegion hw (by decide) hr2) (fun _ => ?_)
  refine goodWord_ite (fun _ => goodWord_replaceIfInRegion hw (by decide) hr2) (fun _ => ?_)
  refine goodWord_ite (fun _ => goodWord_replaceIfInRegion hw (by decide) hr2) (fun _ => hw)

theorem goodWord_step5 {w : List Char} {r1 r2 : Nat} (hw : goodWord w)
    (hr1 : 1 ≤ r1) (hr2 : 1 ≤ r2) : goodWord (step5 w r1 r2) := by
  unfold step5
  refine goodWord_ite (fun _ => goodWord_ite (fun h => ?_) (fun _ => hw)) (fun _ => ?_)
  · rcases Bool.or_eq_true_iff.mp h with h | h
    · exact goodWord_take_inRegion hw hr2 h
    · exact goodWord_take_inRegion hw hr1 (Bool.and_eq_true_iff.mp h).1
  · refine goodWord_ite (fun _ => goodWord_ite
      (fun h => goodWord_take_inRegion hw hr2 (Bool.and_eq_true_iff.mp h).1)
      (fun _ => hw)) (fun _ => hw)

theorem findException_good {w r : List Char} (h : findException w = some r) :
    goodWord r := by
  unfold findException at h
  cases hf : exceptionalForms.find? (fun p => p.1.data == w) with
  | none => rw [hf] at h; exact absurd h (by simp)
  | some p =>
    rw [hf] at h
    have hr : p.2.data = r := Option.some.inj h
    have hp : p ∈ exceptionalForms := List.mem_of_find?_eq_some hf
    have hall : ∀ q ∈ exceptionalForms, q.2.data ≠ [] ∧
        ∀ c ∈ q.2.data, isWordChar c = true := by decide
    obtain ⟨hne, hchars⟩ := hall p hp
    exact hr ▸ ⟨hne, hchars⟩

theorem goodWord_map_toLower {w : List Char} (hw : goodWord w) :
    goodWord (w.map Char.toLower) := by
  constructor
  · simp [hw.1]
  · intro c hc
    rcases List.mem_map.mp hc with ⟨x, hx, rfl⟩
    exact wc_toLower x (hw.2 x hx)

theorem goodWord_stemList {w : List Char} (hw : goodWord w) :
    goodWord (stemList w) := by
  unfold stemList
  dsimp only
  have hlow : goodWord (w.map Char.toLower) := goodWord_map_toLower hw
  cases hfe : findException (w.map Char.toLower) with
  | some r => exact findException_good hfe
  | none =>
    dsimp only
    split_ifs with hlen hexc
    · exact hlow
    · rw [goodWord_trimLeadApo hlow] at hexc ⊢
      rw [goodWord_step0 (goodWord_markYs hlow)] at hexc ⊢
      exact goodWord_unmarkYs (goodWord_step1a (goodWord_markYs hlow))
    · rw [goodWord_trimLeadApo hlow] at hexc ⊢
      have hm : goodWord (markYs (w.map Char.toLower)) := goodWord_markYs hlow
      have hr1 : 1 ≤ r1Pos (markYs (w.map Char.toLower)) := r1Pos_pos hm.1
      have hr2 : 1 ≤ r2Pos (markYs (w.map Char.toLower))
          (r1Pos (markYs (w.map Char.toLower))) := r2Pos_pos hr1
      rw [goodWord_step0 hm] at hexc ⊢
      exact goodWord_unmarkYs (goodWord_step5 (goodWord_step4 (goodWord_step3
        (goodWord_step2 (goodWord_step1c (goodWord_step1b
          (goodWord_step1a hm))) hr1) hr1 hr2) hr2) hr1 hr2)

/-! ## Re-splitting a space-join of good words -/

theorem splitFields_tokens (sep : Char → Bool) (l : List Char) :
    ∀ acc, (∀ c ∈ acc, sep c = false) →
      ∀ t ∈ splitFields sep l acc, t ≠ [] ∧ ∀ c ∈ t, sep c = false := by
  induction l with
  | nil =>
    intro acc hacc t ht
    unfold splitFields at ht
    split_ifs at ht with h
    · simp at ht
    · simp only [List.mem_singleton] at ht
      subst ht
      refine ⟨?_, ?_⟩
      · intro hnil
        rw [List.isEmpty_iff] at h
        exact h (by simpa using congrArg List.reverse hnil)
      · intro c hc
        exact hacc c (List.mem_reverse.mp hc)
  | cons c rest ih =>
    intro acc hacc t ht
    unfold splitFields at ht
    split_ifs at ht with h1 h2
    · exact ih [] (by simp) t ht
    · rcases List.mem_cons.mp ht with h | h
      · subst h
        refine ⟨?_, ?_⟩
        · intro hnil
          rw [List.isEmpty_iff] at h2
          exact h2 (by simpa using congrArg List.reverse hnil)
        · intro x hx
          exact hacc x (List.mem_reverse.mp hx)
      · exact ih [] (by simp) t h
    · refine ih (c :: acc) ?_ t ht
      intro x hx
      rcases List.mem_cons.mp hx with h | h
      · subst h
        rw [Bool.not_eq_true] at h1
        exact h1
      · exact hacc x h

theorem phraseTokens_good (cs : List Char) :
    ∀ t ∈ phraseTokens cs, goodWord t := by
  intro t ht
  obtain ⟨hne, hchar⟩ :=
    splitFields_tokens (fun c => !isWordChar c) cs [] (by simp) t ht
  refine ⟨hne, fun c hc => ?_⟩
  have := hchar c hc
  simpa using this

theorem firstOccFilter_subset (ws : List (List Char)) :
    ∀ seen, ∀ x ∈ firstOccFilter seen ws, x ∈ ws := by
  induction ws with
  | nil => intro seen x hx; simp [firstOccFilter] at hx
  | cons w rest ih =>
    intro seen x hx
    unfold firstOccFilter at hx
    split_ifs at hx with h
    · exact List.mem_cons_of_mem w (ih seen x hx)
    · rcases List.mem_cons.mp hx with h' | h'
      · exact h' ▸ List.mem_cons_self w rest
      · exact List.mem_cons_of_mem w (ih (w :: seen) x h')

theorem normList_good (cs : List Char) : ∀ v ∈ normList cs, goodWord v := by
  intro v hv
  rw [normList_characterization] at hv
  have hv' := firstOccFilter_subset _ [] v hv
  rcases List.mem_map.mp hv' with ⟨t, ht, rfl⟩
  exact goodWord_stemList (phraseTokens_good cs t ht)

theorem splitFields_nil_eq (sep : Char → Bool) (acc : List Char) :
    splitFields sep [] acc = if acc.isEmpty then [] else [acc.reverse] := rfl

theorem splitFields_cons_eq (sep : Char → Bool) (c : Char) (rest acc : List Char) :
    splitFields sep (c :: rest) acc =
      if sep c then
        if acc.isEmpty then splitFields sep rest []
        else acc.reverse :: splitFields sep rest []
      else splitFields sep rest (c :: acc) := rfl

theorem splitFields_append_token (sep : Char → Bool) (tok : List Char) :
    ∀ rest acc, (∀ c ∈ tok, sep c = false) →
      splitFields sep (tok ++ rest) acc = splitFields sep rest (tok.reverse ++ acc) := by
  induction tok with
  | nil => intro rest acc _; simp
  | cons c t ih =>
    intro rest acc htok
    have hc : sep c = false := htok c (List.mem_cons_self c t)
    show splitFields sep (c :: (t ++ rest)) acc = _
    rw [splitFields_cons_eq, if_neg (by simp [hc])]
    rw [ih rest (c :: acc) (fun x hx => htok x (List.mem_cons_of_mem c hx))]
    simp


theorem splitFields_charJoin (sep : Char → Bool) (hsep : sep ' ' = true) :
    ∀ vs : List (List Char),
      (∀ v ∈ vs, v ≠ [] ∧ ∀ c ∈ v, sep c = false) →
      splitFields sep (charJoin vs) [] = vs := by
  intro vs
  induction vs with
  | nil => intro _; rfl
  | cons v vs ih =>
    intro hgood
    obtain ⟨hvne, hvchar⟩ := hgood v (List.mem_cons_self v vs)
    cases vs with
    | nil =>
      have h := splitFields_append_token sep v [] [] hvchar
      simp only [List.append_nil] at h
      show splitFields sep v [] = [v]
      rw [h, splitFields_nil_eq, if_neg (by simp [List.isEmpty_iff, hvne])]
      simp
    | cons u us =>
      show splitFields sep (v ++ ' ' :: charJoin (u :: us)) [] = v :: u :: us
      rw [splitFields_append_token sep v _ [] hvchar]
      simp only [List.append_nil]
      rw [splitFields_cons_eq, if_pos hsep,
        if_neg (by simp [List.isEmpty_iff, hvne])]
      rw [ih (fun x hx => hgood x (List.mem_cons_of_mem v hx))]
      simp

theorem intercalate_go_data (s : String) (as : List String) :
    ∀ acc : String, (String.intercalate.go acc s as).data =
      acc.data ++ (as.map (fun a => s.data ++ a.data)).join := by
  induction as with
  | nil => intro acc; simp [String.intercalate.go]
  | cons a as ih =>
    intro acc
    show (String.intercalate.go (acc ++ s ++ a) s as).data = _
    rw [ih (acc ++ s ++ a)]
    simp [String.data_append]

theorem charJoin_cons_eq (v : List Char) (us : List (List Char)) :
    charJoin (v :: us) = v ++ (us.map (fun u => ' ' :: u)).join := by
  induction us generalizing v with
  | nil => simp [charJoin]
  | cons u us ih =>
    show v ++ ' ' :: charJoin (u :: us) = _
    rw [ih u]
    simp

theorem intercalate_space_data (ws : List String) :
    (String.intercalate " " ws).data = charJoin (ws.map String.data) := by
  cases ws with
  | nil => rfl
  | cons a as =>
    show (String.intercalate.go a " " as).data = _
    rw [intercalate_go_data]
    simp only [List.map_cons]
    rw [charJoin_cons_eq, List.map_map]
    rfl

theorem normFold_id (vs : List (List Char)) :
    ∀ acc, vs.Nodup → (∀ v ∈ vs, isStopWordL v = false) →
      (∀ v ∈ vs, acc.contains v = false) → normFold acc vs = acc ++ vs := by
  induction vs with
  | nil => intro acc _ _ _; simp [normFold]
  | cons w rest ih =>
    intro acc hnd hstop hacc
    have hw : isStopWordL w = false := hstop w (List.mem_cons_self w rest)
    have hcw : acc.contains w = false := hacc w (List.mem_cons_self w rest)
    have hcw2 : w ∉ acc := by
      simpa [List.contains, List.elem_eq_mem] using hcw
    unfold normFold
    rw [if_neg (by simp [hw, List.contains, List.elem_eq_mem, hcw2])]
    rw [ih (acc ++ [w]) (List.nodup_cons.mp hnd).2
      (fun v hv => hstop v (List.mem_cons_of_mem w hv)) ?_]
    · simp
    · intro v hv
      have hvacc : acc.contains v = false := hacc v (List.mem_cons_of_mem w hv)
      have hvw : v ≠ w := fun h => (List.nodup_cons.mp hnd).1 (h ▸ hv)
      simp only [List.contains, List.elem_eq_mem, decide_eq_false_iff_not] at hvacc ⊢
      simp only [List.mem_append, List.mem_singleton]
      rintro (h | h)
      · exact hvacc h
      · exact hvw h

/-- Claim C6 counterexample:  Normalization is not idempotent on its own
output: for the phrase `early` the single keyword is `earli` (an exceptional
stemmer form), and a second pass stems `earli` further to `ear`. -/
theorem C6_counterexample :
    ¬ (normKeywords (String.intercalate " " (normKeywords "early")) =
        normKeywords "early") := by
  decide

/-- Claim C6 amended:  Re-normalizing the space-join of `Norm`'s output
returns the output unchanged for every phrase whose keywords are fixed
points of the stemmer (the condition the counterexample `early` violates;
keywords are always nonempty alphanumeric non-stop words, so the stemmer
fixed-point property is the only extra requirement). -/
theorem C6_norm_idempotence_amended (phrase : String)
    (hfix : ∀ w ∈ normKeywords phrase, stemString w = w) :
    normKeywords (String.intercalate " " (normKeywords phrase)) =
      normKeywords phrase := by
  unfold normKeywords at hfix ⊢
  have hdata : (String.intercalate " " ((normList phrase.data).map String.mk)).data
      = charJoin (normList phrase.data) := by
    rw [intercalate_space_data, List.map_map]
    exact congrArg charJoin
      ((List.map_congr_left (g := id) (fun v _ => rfl)).trans (List.map_id _))
  rw [hdata]
  have hgood : ∀ v ∈ normList phrase.data, goodWord v := normList_good phrase.data
  have htok : phraseTokens (charJoin (normList phrase.data)) = normList phrase.data := by
    unfold phraseTokens
    refine splitFields_charJoin _ (by decide) _ ?_
    intro v hv
    obtain ⟨hne, hchar⟩ := hgood v hv
    exact ⟨hne, fun c hc => by simp [hchar c hc]⟩
  have hstem : (normList phrase.data).map stemList = normList phrase.data := by
    rw [List.map_congr_left (g := id) ?_, List.map_id]
    intro v hv
    have hmk : String.mk v ∈ (normList phrase.data).map String.mk :=
      List.mem_map.mpr ⟨v, hv, rfl⟩
    have := hfix (String.mk v) hmk
    exact stringMk_injective this
  obtain ⟨hnd, hstop⟩ := normList_facts phrase.data
  rw [normList, htok, hstem]
  rw [normFold_id _ [] hnd hstop (by simp)]
  simp

/-- Witness for the amended C6 at the phrase `follow car`, whose two
keywords `follow` and `car` are stemmer fixed points. -/
theorem C6_norm_idempotence_amended_witness :
    normKeywords (String.intercalate " " (normKeywords "follow car")) =
      normKeywords "follow car" :=
  C6_norm_idempotence_amended "follow car" (by decide)

/-! ## C1: the full-scan ranker -/

theorem rankLE_iff (a b : ComicRank) : rankLE a b ↔
    b.matched ≤ a.matched ∧
      (b.matched = a.matched → b.matched * a.total ≤ a.matched * b.total) := by
  unfold rankLE rankLTb
  by_cases h : b.matched = a.matched
  · rw [if_neg (by simp [h])]
    simp [h, decide_eq_false_iff_not, not_lt]
  · rw [if_pos h]
    simp [h, decide_eq_false_iff_not, not_lt]

theorem rankLE_total (a b : ComicRank) : rankLE a b ∨ rankLE b a := by
  rw [rankLE_iff, rankLE_iff]
  by_cases h : a.matched = b.matched
  · rcases Int.le_total (b.matched * a.total) (a.matched * b.total) with hp | hp
    · exact Or.inl ⟨le_of_eq h.symm, fun _ => hp⟩
    · exact Or.inr ⟨le_of_eq h, fun _ => hp⟩
  · rcases Int.lt_or_lt_of_ne h with hlt | hlt
    · exact Or.inr ⟨le_of_lt hlt, fun he => absurd he h⟩
    · exact Or.inl ⟨le_of_lt hlt, fun he => absurd he.symm h⟩

theorem rankLE_trans (a b c : ComicRank) (hab : rankLE a b) (hbc : rankLE b c) :
    rankLE a c := by
  rw [rankLE_iff] at hab hbc ⊢
  obtain ⟨h1, h2⟩ := hab
  obtain ⟨h3, h4⟩ := hbc
  refine ⟨le_trans h3 h1, fun heq => ?_⟩
  have hcb : c.matched = b.matched := by omega
  have hba : b.matched = a.matched := by omega
  have e2 := h2 hba
  have e4 := h4 hcb
  rw [hba] at e2
  rw [hcb, hba] at e4
  rw [hcb, hba]
  exact le_trans e2 e4

theorem matchedCount_eq_zero_iff (P : List String) (c : ComicInfo) :
    matchedCount P c = 0 ↔ c.words.any (fun w => P.contains w) = false := by
  unfold matchedCount
  rw [Int.natCast_eq_zero, List.length_eq_zero, List.filter_eq_nil]
  simp [List.any_eq_true]

theorem ranksOf_map_comic (P : List String) (catalog : List ComicInfo) :
    (ranksOf P catalog).map ComicRank.comic =
      (catalog.filter (fun c => c.words.any (fun w => P.contains w))).map
        ComicInfo.comic := by
  induction catalog with
  | nil => rfl
  | cons c rest ih =>
    unfold ranksOf at ih ⊢
    rw [List.filterMap_cons, List.filter_cons]
    by_cases h : matchedCount P c = 0
    · rw [if_pos h]
      rw [matchedCount_eq_zero_iff] at h
      simp only [h, Bool.false_eq_true, if_false]
      exact ih
    · rw [if_neg h]
      have hany : c.words.any (fun w => P.contains w) = true := by
        rcases Bool.eq_false_or_eq_true (c.words.any (fun w => P.contains w)) with ht | hf
        · exact ht
        · exact absurd (matchedCount_eq_zero_iff P c |>.mpr hf) h
      simp only [hany, if_true, List.map_cons]
      rw [← ih]

theorem rankedSearch_eq (catalog : List ComicInfo) (P : List String) (limit : Int) :
    rankedSearch catalog P limit =
      ((sortRanks (ranksOf P catalog)).map ComicRank.comic).take limit.toNat := by
  unfold rankedSearch
  dsimp only
  split_ifs with h1 h2
  · rw [List.isEmpty_iff] at h1
    subst h1
    simp [sortRanks, ranksOf, List.insertionSort]
  · rw [List.isEmpty_iff] at h2
    rw [h2]
    simp [sortRanks, List.insertionSort]
  · have hlen : (sortRanks (ranksOf P catalog)).length = (ranksOf P catalog).length :=
      (List.perm_insertionSort rankLE (ranksOf P catalog)).length_eq
    have htn : (min ((sortRanks (ranksOf P catalog)).length : Int) limit).toNat =
        min (sortRanks (ranksOf P catalog)).length limit.toNat := by omega
    rw [htn, List.map_take]
    rw [show (sortRanks (ranksOf P catalog)).length =
        (List.map ComicRank.comic (sortRanks (ranksOf P catalog))).length from
      (List.length_map _ _).symm]
    rw [Nat.min_comm, ← List.take_take, List.take_length]


/-- Claim C1:  For every catalog, non-empty phrase and positive limit, the
full-scan `Search` returns, without error, the truncation to `limit` of a
ranking that (i) is a permutation of the rank entries of exactly those
catalog entries sharing at least one keyword with the normalized phrase
(`matched = 0` entries dropped), and (ii) is sorted by descending `matched`
with ties broken by the cross-multiplied `matched/total` ratio descending
(`rankLE`); and on the S4 catalog with phrase `test phrase is unknown` and
limit 10 it returns ids in order 2, 1, 3. -/
theorem C1_full_scan_ranking :
    (∀ (catalog : List ComicInfo) (phrase : String) (limit : Int),
      phrase ≠ "" → 0 < limit →
      searchFullScan catalog phrase limit =
        Except.ok (((sortRanks (ranksOf (normKeywords phrase) catalog)).map
          ComicRank.comic).take limit.toNat) ∧
      (sortRanks (ranksOf (normKeywords phrase) catalog)).Perm
        (ranksOf (normKeywords phrase) catalog) ∧
      List.Sorted rankLE (sortRanks (ranksOf (normKeywords phrase) catalog)) ∧
      (ranksOf (normKeywords phrase) catalog).map ComicRank.comic =
        (catalog.filter (fun c => c.words.any (fun w =>
          (normKeywords phrase).contains w))).map ComicInfo.comic) ∧
    searchFullScan catalogS4 "test phrase is unknown" 10 =
      Except.ok [⟨2, "url2"⟩, ⟨1, "url1"⟩, ⟨3, "url3"⟩] := by
  constructor
  · intro catalog phrase limit hph hlim
    haveI : IsTotal ComicRank rankLE := ⟨rankLE_total⟩
    haveI : IsTrans ComicRank rankLE := ⟨rankLE_trans⟩
    refine ⟨?_, List.perm_insertionSort rankLE _,
      List.sorted_insertionSort rankLE _, ranksOf_map_comic _ _⟩
    unfold searchFullScan
    rw [if_neg (by simp [hph]; omega)]
    rw [rankedSearch_eq]
  · rfl

/-- Witness for C1 instantiating the universally quantified part on the S4
catalog, phrase and limit. -/
theorem C1_full_scan_ranking_witness :
    searchFullScan catalogS4 "test phrase is unknown" 10 =
      Except.ok (((sortRanks (ranksOf (normKeywords "test phrase is unknown")
        catalogS4)).map ComicRank.comic).take (10 : Int).toNat) ∧
    (sortRanks (ranksOf (normKeywords "test phrase is unknown") catalogS4)).Perm
      (ranksOf (normKeywords "test phrase is unknown") catalogS4) ∧
    List.Sorted rankLE
      (sortRanks (ranksOf (normKeywords "test phrase is unknown") catalogS4)) ∧
    (ranksOf (normKeywords "test phrase is unknown") catalogS4).map
      ComicRank.comic =
      (catalogS4.filter (fun c => c.words.any (fun w =>
        (normKeywords "test phrase is unknown").contains w))).map
        ComicInfo.comic :=
  C1_full_scan_ranking.1 catalogS4 "test phrase is unknown" 10 (by decide)
    (by decide)

/-! ## C10: ISearch returns each id at most once -/


theorem iSearchStep_inv {acc : (Int → Nat) × List Int} (h : ISearchInv acc)
    (id : Int) : ISearchInv (iSearchStep acc id) := by
  obtain ⟨hnd, hmem⟩ := h
  refine ⟨?_, ?_⟩
  · show (if acc.1 id = 0 then acc.2 ++ [id] else acc.2).Nodup
    by_cases hz : acc.1 id = 0
    · rw [if_pos hz]
      refine List.Nodup.append hnd (List.nodup_singleton id) ?_
      intro x hx hx'
      simp only [List.mem_singleton] at hx'
      subst hx'
      exact (hmem x).mp hx hz
    · rw [if_neg hz]
      exact hnd
  · intro i
    show i ∈ (if acc.1 id = 0 then acc.2 ++ [id] else acc.2) ↔
        (if i = id then acc.1 i + 1 else acc.1 i) ≠ 0
    by_cases hi : i = id
    · subst hi
      rw [if_pos rfl]
      by_cases hz : acc.1 i = 0
      · rw [if_pos hz]
        simp only [List.mem_append, List.mem_singleton]
        exact ⟨fun _ => Nat.succ_ne_zero _, fun _ => Or.inr trivial⟩
      · rw [if_neg hz]
        exact ⟨fun _ => Nat.succ_ne_zero _, fun _ => (hmem i).mpr hz⟩
    · rw [if_neg hi]
      by_cases hz : acc.1 id = 0
      · rw [if_pos hz]
        simp only [List.mem_append, List.mem_singleton, hi, or_false]
        exact hmem i
      · rw [if_neg hz]
        exact hmem i

theorem foldl_iSearchStep_inv (postings : List Int) :
    ∀ acc, ISearchInv acc → ISearchInv (postings.foldl iSearchStep acc) := by
  induction postings with
  | nil => intro acc h; exact h
  | cons p rest ih =>
    intro acc h
    exact ih (iSearchStep acc p) (iSearchStep_inv h p)

theorem foldl_keywords_inv (index : List (String × List Int)) (kws : List String) :
    ∀ acc, ISearchInv acc →
      ISearchInv (kws.foldl (fun acc kw =>
        (indexLookup index kw).foldl iSearchStep acc) acc) := by
  induction kws with
  | nil => intro acc h; exact h
  | cons kw rest ih =>
    intro acc h
    exact ih _ (foldl_iSearchStep_inv (indexLookup index kw) acc h)

theorem iSearchAcc_inv (index : List (String × List Int)) (keywords : List String) :
    ISearchInv (iSearchAcc index keywords) := by
  unfold iSearchAcc
  refine foldl_keywords_inv index keywords _ ⟨List.nodup_nil, fun i => by simp⟩

theorem filterMap_store_ids_sublist (store : Int → Option String) (ids : List Int) :
    ((ids.filterMap (fun id => (store id).map (fun url => Comic.mk id url))).map
      Comic.id).Sublist ids := by
  induction ids with
  | nil => simp
  | cons i rest ih =>
    rw [List.filterMap_cons]
    cases hstore : store i with
    | none =>
      simp only [Option.map_none']
      exact ih.cons i
    | some url =>
      simp only [Option.map_some']
      rw [List.map_cons]
      exact ih.cons₂ i

/-- Claim C10:  For every index, store, phrase and limit, a successful
`ISearch` returns a list in which every comic id occurs at most once, even
when several distinct query keywords hit the same posting lists: first-seen
ids are deduplicated before the store lookup, and scores accumulate without
duplicating entries. -/
theorem C10_isearch_unique_ids (index : List (String × List Int))
    (store : Int → Option String) (phrase : String) (limit : Int)
    (out : List Comic) (h : iSearch index store phrase limit = Except.ok out) :
    (out.map Comic.id).Nodup := by
  unfold iSearch at h
  split_ifs at h with hval
  simp only [Except.ok.injEq] at h
  subst h
  obtain ⟨hnd, _⟩ := iSearchAcc_inv index (normKeywords phrase)
  have hcomics :
      (((iSearchAcc index (normKeywords phrase)).2.filterMap
        (fun id => (store id).map (fun url => Comic.mk id url))).map Comic.id).Nodup :=
    (filterMap_store_ids_sublist store _).nodup hnd
  have hperm :
      (List.insertionSort (fun a b : Comic =>
          (iSearchAcc index (normKeywords phrase)).1 b.id ≤
            (iSearchAcc index (normKeywords phrase)).1 a.id)
        ((iSearchAcc index (normKeywords phrase)).2.filterMap
          (fun id => (store id).map (fun url => Comic.mk id url)))).Perm
        ((iSearchAcc index (normKeywords phrase)).2.filterMap
          (fun id => (store id).map (fun url => Comic.mk id url))) :=
    List.perm_insertionSort _ _
  have hsorted := ((hperm.map Comic.id).nodup_iff).mpr hcomics
  rw [List.map_take]
  exact hsorted.sublist (List.take_sublist _ _)

/-- Witness for C10: two keywords whose posting lists contain the same two
ids in different order still yield each id once. -/
theorem C10_isearch_unique_ids_witness :
    (([⟨5, "u"⟩, ⟨7, "u"⟩] : List Comic).map Comic.id).Nodup :=
  C10_isearch_unique_ids [("follow", [5, 7]), ("car", [7, 5])]
    (fun id => if id = 5 ∨ id = 7 then some "u" else none) "follow car" 10
    [⟨5, "u"⟩, ⟨7, "u"⟩] rfl

/-! ## C2: Update/Drop exclusivity -/

theorem udReachable_invariant (s : UDState) (h : UDReachable s) :
    s.running.length ≤ 1 ∧ (s.inProgress = false → s.running = []) := by
  induction h with
  | init => exact ⟨by simp [udInit], fun _ => rfl⟩
  | @step s1 l t1 hr hstep ih =>
    cases hstep with
    | beginOk op _ hflag =>
      have hempty := ih.2 hflag
      refine ⟨by simp [hempty], ?_⟩
      intro hcontra
      exact absurd hcontra (by simp)
    | beginBusy op _ hflag => exact ih
    | finish op _ hmem =>
      have hlen := ih.1
      have hone : s1.running = [op] := by
        cases hr2 : s1.running with
        | nil =>
          rw [hr2] at hmem
          simp at hmem
        | cons x rest =>
          rw [hr2] at hmem hlen
          simp only [List.length_cons] at hlen
          have hrest : rest = [] := by
            rw [← List.length_eq_zero]
            omega
          subst hrest
          rcases List.mem_cons.mp hmem with h' | h'
          · rw [h']
          · simp at h'
      refine ⟨?_, fun _ => ?_⟩ <;> simp [hone]

/-- Claim C2:  Update and Drop are mutually exclusive through the single
`in_progress` flag: in every reachable state at most one operation is in
flight; a successful CAS is impossible while the flag is set (such a call
returns `AlreadyInProgress` leaving the state unchanged, touching nothing);
and completion releases the flag. -/
theorem C2_update_drop_exclusivity :
    (∀ s : UDState, UDReachable s → s.running.length ≤ 1) ∧
    (∀ (s t : UDState) (op : UDOp), s.inProgress = true →
      UDStep s (.beginOk op) t → False) ∧
    (∀ (s t : UDState) (op : UDOp), UDStep s (.beginBusy op) t → t = s) ∧
    (∀ (s t : UDState) (op : UDOp), UDStep s (.finish op) t →
      t.inProgress = false) := by
  refine ⟨fun s h => (udReachable_invariant s h).1, ?_, ?_, ?_⟩
  · intro s t op hflag hstep
    cases hstep with
    | beginOk _ _ h => rw [hflag] at h; exact Bool.noConfusion h
  · intro s t op hstep
    cases hstep with
    | beginBusy _ _ _ => rfl
  · intro s t op hstep
    cases hstep with
    | finish _ _ _ => rfl

/-- Witness for C2 at the state reached by one accepted Update call. -/
theorem C2_update_drop_exclusivity_witness :
    (UDState.mk true [UDOp.update]).running.length ≤ 1 :=
  C2_update_drop_exclusivity.1 (UDState.mk true [UDOp.update])
    (UDReachable.step UDReachable.init (UDStep.beginOk UDOp.update udInit rfl))

/-! ## C3: rate limiter cancellation and token bookkeeping -/


/-- Claim C3 counterexample:  With a full deficit (no token available) and no
deadline, a context cancelled during the sleep makes `wait` fail with a
timeout-class error (408) — but the bucket is left with the token already
subtracted (`tokens - 1`), not in the untouched state the claim asserts. -/
theorem C3_counterexample :
    (rlWait 1 1 0 0 none false true).1 = WaitOutcome.errCancelled ∧
    rlStatus (rlWait 1 1 0 0 none false true).1 = 408 ∧
    (rlWait 1 1 0 0 none false true).2 = tokensAt 1 1 0 0 - 1 ∧
    tokensAt 1 1 0 0 - 1 ≠ tokensAt 1 1 0 0 := by
  have htok : tokensAt 1 1 0 0 = 0 := by
    unfold tokensAt
    norm_num
  have hwait : rlWait 1 1 0 0 none false true =
      (WaitOutcome.errCancelled, tokensAt 1 1 0 0 - 1) := by
    unfold rlWait
    rw [if_neg (by simp)]
    dsimp only
    rw [if_neg (by rw [htok]; norm_num [durationFromTokens]), if_pos rfl]
  refine ⟨by rw [hwait], by rw [hwait]; rfl, by rw [hwait], ?_⟩
  rw [htok]
  norm_num

/-- Claim C3 amended:  A request that fails inside `wait` always gets a
timeout-class error (HTTP 408), but the token bookkeeping differs by path:
the deadline pre-check path returns before the consumption is stored, so the
bucket keeps `tokensAt` (no token consumed); a cancellation during the sleep
happens after `tokens - 1` was stored, so the token stays consumed. -/
theorem C3_rate_limiter_amended :
    (∀ limit burst tokens elapsed s : ℚ,
      s < rlDelay limit burst tokens elapsed →
      rlWait limit burst tokens elapsed (some s) false true =
        (WaitOutcome.errDeadline, tokensAt limit burst tokens elapsed)) ∧
    (∀ limit burst tokens elapsed : ℚ,
      0 < rlDelay limit burst tokens elapsed →
      rlWait limit burst tokens elapsed none false true =
        (WaitOutcome.errCancelled, tokensAt limit burst tokens elapsed - 1)) ∧
    (∀ limit burst tokens elapsed s : ℚ,
      0 < rlDelay limit burst tokens elapsed →
      rlDelay limit burst tokens elapsed ≤ s →
      rlWait limit burst tokens elapsed (some s) false true =
        (WaitOutcome.errCancelled, tokensAt limit burst tokens elapsed - 1)) ∧
    rlStatus WaitOutcome.errDeadline = 408 ∧
    rlStatus WaitOutcome.errCancelled = 408 := by
  refine ⟨?_, ?_, ?_, rfl, rfl⟩
  · intro limit burst tokens elapsed s hs
    have hs2 : s < (if tokensAt limit burst tokens elapsed - 1 < 0 then
        durationFromTokens limit (-(tokensAt limit burst tokens elapsed - 1))
      else 0) := hs
    unfold rlWait
    rw [if_neg (by simp)]
    dsimp only
    rw [if_pos hs2]
  · intro limit burst tokens elapsed hd
    have hd2 : ¬ ((if tokensAt limit burst tokens elapsed - 1 < 0 then
        durationFromTokens limit (-(tokensAt limit burst tokens elapsed - 1))
      else 0) ≤ 0) := not_le.mpr hd
    unfold rlWait
    rw [if_neg (by simp)]
    dsimp only
    rw [if_neg hd2, if_pos rfl]
  · intro limit burst tokens elapsed s hd hds
    have hs2 : ¬ (s < (if tokensAt limit burst tokens elapsed - 1 < 0 then
        durationFromTokens limit (-(tokensAt limit burst tokens elapsed - 1))
      else 0)) := not_lt.mpr hds
    have hd2 : ¬ ((if tokensAt limit burst tokens elapsed - 1 < 0 then
        durationFromTokens limit (-(tokensAt limit burst tokens elapsed - 1))
      else 0) ≤ 0) := not_le.mpr hd
    unfold rlWait
    rw [if_neg (by simp)]
    dsimp only
    rw [if_neg hs2, if_neg hd2, if_pos rfl]

/-- Witness for the amended C3: an empty bucket with rate 1, cancellation
during the one-second sleep. -/
theorem C3_rate_limiter_amended_witness :
    rlWait 1 1 0 0 none false true =
      (WaitOutcome.errCancelled, tokensAt 1 1 0 0 - 1) :=
  C3_rate_limiter_amended.2.1 1 1 0 0 (by
    unfold rlDelay tokensAt durationFromTokens
    norm_num)

/-! ## C7: worker tombstone and skip semantics -/

/-- Claim C7:  A worker receiving id 404 emits the tombstone entry
`{id: 404, url: "", words: []}` without consulting upstream (the output is
the same for any two fetch/normalize functions); for any other id on which
upstream reports not-found it emits the skip sentinel `none`; and skip
sentinels contribute nothing to the collected entries, so no error reaches
the Update result. -/
theorem C7_worker_tombstone_and_skip :
    (∀ (fetch fetch2 : Int → Except ErrKind XKCDInfo)
       (norm norm2 : String → Except ErrKind (List String)),
      workerStep fetch norm 404 = some ⟨404, "", []⟩ ∧
      workerStep fetch norm 404 = workerStep fetch2 norm2 404) ∧
    (∀ (fetch : Int → Except ErrKind XKCDInfo)
       (norm : String → Except ErrKind (List String)) (id : Int),
      id ≠ 404 → fetch id = .error .notFound →
      workerStep fetch norm id = none) ∧
    (∀ (outs1 outs2 : List (Option Entry)),
      collectEntries (outs1 ++ none :: outs2) = collectEntries (outs1 ++ outs2)) := by
  refine ⟨?_, ?_, ?_⟩
  · intro fetch fetch2 norm norm2
    constructor <;> rfl
  · intro fetch norm id hid hfetch
    unfold workerStep
    rw [if_neg hid, hfetch]
  · intro outs1 outs2
    unfold collectEntries
    simp

/-- Witness for C7: a worker sees upstream 404 on id 5 and skips. -/
theorem C7_worker_tombstone_and_skip_witness :
    workerStep (fun _ => Except.error ErrKind.notFound)
      (fun _ => Except.ok []) 5 = none :=
  C7_worker_tombstone_and_skip.2.1 (fun _ => Except.error ErrKind.notFound)
    (fun _ => Except.ok []) 5 (by decide) rfl

/-! ## C8: publish exactly when entries were produced and inserted -/

/-- Claim C8:  The update tail publishes exactly when the collected entry set
is non-empty and the batch insert succeeded; an empty collection returns
success without touching the store (the result is the same for every insert
function) and without publishing; and a failing publish never fails the
Update (the result is independent of the publish outcome). -/
theorem C8_publish_policy :
    ∀ (entries : List Entry) (add : List Entry → Except ErrKind Unit)
      (p p2 : Bool),
      ((updateCommit entries add p).2 = true ↔
        entries ≠ [] ∧ add entries = .ok ()) ∧
      updateCommit entries add p = updateCommit entries add p2 ∧
      (∀ add2, entries = [] → updateCommit entries add p = updateCommit entries add2 p) ∧
      (entries = [] → updateCommit entries add p = (.ok (), false)) ∧
      (entries ≠ [] → add entries = .ok () → (updateCommit entries add p).1 = .ok ()) := by
  intro entries add p p2
  refine ⟨?_, rfl, ?_, ?_, ?_⟩
  · unfold updateCommit
    by_cases he : entries = []
    · subst he
      simp
    · rw [if_neg (by simp [he])]
      cases hadd : add entries with
      | error e =>
        simp [he, hadd]
      | ok u =>
        cases u
        simp [he, hadd]
  · intro add2 he
    subst he
    rfl
  · intro he
    subst he
    rfl
  · intro hne hok
    unfold updateCommit
    rw [if_neg (by simp [hne]), hok]

/-- Witness for C8: an empty collection succeeds without insert or publish
even when the insert function would fail. -/
theorem C8_publish_policy_witness :
    updateCommit [] (fun _ => Except.error ErrKind.other) true =
      (Except.ok (), false) :=
  (C8_publish_policy [] (fun _ => Except.error ErrKind.other) true true).2.2.2.1 rfl

/-! ## C9: Update when the upstream last-id query reports not-found -/

/-- Claim C9 counterexample:  When `LastID` reports not-found, `Update` fails
with an error wrapping `NotFound` — not with a service-unavailable kind —
so the claimed `UpstreamUnavailable` classification does not hold. -/
theorem C9_counterexample :
    updateRun false (.ok []) (.error .notFound) (fun _ => .error .other)
        (fun _ => .ok []) (fun _ => .ok ()) true =
      (.error .notFound, false, false) ∧
    ErrKind.notFound ≠ ErrKind.serviceUnavailable := by
  exact ⟨rfl, by decide⟩

/-- Claim C9 amended:  When the upstream last-id query reports not-found,
`Update` fails with an error wrapping the `NotFound` kind (surfaced by the
update gRPC server as `Internal`, since only `AlreadyExists` is mapped
specially), performing no insertion and publishing no event. -/
theorem C9_lastid_notfound_amended :
    ∀ (dbIDs : List Int) (fetch : Int → Except ErrKind XKCDInfo)
      (norm : String → Except ErrKind (List String))
      (add : List Entry → Except ErrKind Unit) (publishOk : Bool),
      updateRun false (.ok dbIDs) (.error .notFound) fetch norm add publishOk =
        (.error .notFound, false, false) ∧
      updateGrpcCode (updateRun false (.ok dbIDs) (.error .notFound) fetch norm
        add publishOk).1 = .internal := by
  intro dbIDs fetch norm add publishOk
  exact ⟨rfl, rfl⟩

end XkcdSearch
